import Mathlib

/-!
# Verification of the ARK refinement pipeline (`src/ark_app.py`)

A shallow embedding of the three refinement stages of the ARK scheduler:

* `enforce_non_preemptive_finish_started` — the Interval Consolidator
  (merging same-task fragments inside one employee/day/shift-segment);
* `batch_like_tasks` — the Stage Batcher (regrouping same-family stages
  within an employee/day);
* `inject_carryovers_into_cfg` — the Carryover propagation routine
  (turning unconsumed ledger entries into blocking intervals).

Modelling conventions:

* Timestamps are rationals counting **hours since an epoch midnight**;
  calendar day `k` covers the half-open window `[24*k, 24*(k+1))`.
  `pd.Timedelta(hours=h)` addition becomes rational addition, and the
  source's `(end - start).total_seconds()/3600.0` becomes plain
  subtraction (the unit conversion disappears because we already count
  hours).  Durations and ledger hours are rationals; the model covers
  the finite float values the pipeline produces (float NaN in a numeric
  column is represented as `Option.none` where the source semantics
  depends on it, i.e. for timestamps).
* A missing/unparseable timestamp (pandas `NaT`) is `Option.none`.
* Arithmetic is done through `qadd`/`qsub` below, which are proved equal
  to `+`/`-` on `ℚ`; they are written via `mkRat` only so that closed
  runs of the model reduce inside the kernel (`Rat.add` is irreducible).
* Python dataframe rows become the structure `Row`; column lookup by
  display name (`_find_col`) is resolved statically to the fields.
* `sorted`/`sort_values` (stable in the source) become stable
  `List.insertionSort` with the corresponding lexicographic key.
* Strings keep Python's `.strip().lower()` semantics for the ASCII
  range via `pyNorm`; `_stage_base`'s regex pipeline is reproduced on
  the character list.
-/

namespace ARK

/-! ## Rational helpers that reduce in the kernel -/

/-- Addition on `ℚ` via `mkRat`; provably equal to `+` (see `qadd_eq`).
Used instead of `+` only because `Rat.add` is marked irreducible and
would block kernel evaluation of closed program runs. -/
def qadd (a b : ℚ) : ℚ := mkRat (a.num * b.den + b.num * a.den) (a.den * b.den)

/-- Negation on `ℚ` via `mkRat`; provably equal to `Neg.neg`. -/
def qneg (a : ℚ) : ℚ := mkRat (-a.num) a.den

/-- Subtraction on `ℚ` via `mkRat`; provably equal to `-`. -/
def qsub (a b : ℚ) : ℚ := qadd a (qneg b)

/-- Day index of a timestamp: `⌊t / 24⌋`, written on `num`/`den` so it
reduces in the kernel (models `pandas.Timestamp.date()` / `.dt.date`). -/
def dayOf (t : ℚ) : ℤ := t.num.ediv (24 * (t.den : ℤ))

/-- Midnight of calendar day `d` (models `Timestamp.normalize()` /
`datetime(d.year, d.month, d.day, h, m)` construction). -/
def dayStart (d : ℤ) : ℚ := mkRat (24 * d) 1

/-- Python `date.weekday()` for the day index (day 0 is a Monday). -/
def weekday (d : ℤ) : ℤ := d.emod 7

/-- The float tolerance `1e-6` from `inject_carryovers_into_cfg`. -/
def eps : ℚ := mkRat 1 1000000

/-! ## Python string normalization (ASCII fragment) -/

/-- ASCII `str.lower` on one character. -/
def lowerChar (c : Char) : Char :=
  if 'A' ≤ c ∧ c ≤ 'Z' then Char.ofNat (c.toNat + 32) else c

/-- Whitespace test matching Python's `str.strip` default set (ASCII). -/
def isWS (c : Char) : Bool := c = ' ' || c = '\t' || c = '\n' || c = '\r'

/-- Python `str.strip` on a character list. -/
def pyStripChars (l : List Char) : List Char :=
  ((l.dropWhile isWS).reverse.dropWhile isWS).reverse

/-- Python `str(x).strip().lower()`, as used for deadline keys. -/
def pyNorm (s : String) : String := ⟨(pyStripChars s.data).map lowerChar⟩

/-- Collapse whitespace runs to single spaces (`re.sub(r"\s+", " ", s)`).
The boolean flag records whether the previous kept character closed a
whitespace run. -/
def squashWS : List Char → Bool → List Char
  | [], _ => []
  | c :: rest, inRun =>
    if isWS c then
      if inRun then squashWS rest true else ' ' :: squashWS rest true
    else
      c :: squashWS rest false

/-- `_stage_base`: strip + lowercase, map `-`/`_` to spaces, collapse
whitespace, delete digits, strip again. -/
def stage_base (s : String) : String :=
  let l := (pyNorm s).data
  let l := l.map (fun c => if c = '-' ∨ c = '_' then ' ' else c)
  let l := squashWS l false
  let l := l.filter (fun c => ¬ c.isDigit)
  ⟨pyStripChars l⟩

/-! ## Task rows -/

/-- One dataframe row of the schedule, after the stage's
`pd.to_datetime(..., errors="coerce")` parse: `start`/`stop` are `none`
exactly when the timestamp is missing/unparseable (`NaT`); `hours` is
the `Hours` column (`none` = missing value). -/
structure Row where
  cust : String
  job : String
  srv : String
  stg : String
  item : String
  start : Option ℚ
  stop : Option ℚ
  hours : Option ℚ
  deriving DecidableEq

/-- `task_key(row)`: the task identity key
(customer, job, service, stage, item). -/
def task_key (r : Row) : String × String × String × String × String :=
  (r.cust, r.job, r.srv, r.stg, r.item)

/-- The deadline-map key of a row:
`(str(cust).strip().lower(), str(stage).strip().lower())`. -/
def dlKey (r : Row) : String × String := (pyNorm r.cust, pyNorm r.stg)

/-- A deadline target row from `cfg["priorities"]["targets"]`; `by_` is
the parsed `by` timestamp (`none` = unparseable `NaT`). -/
structure Target where
  cust : String
  stg : String
  by_ : Option ℚ
  deriving DecidableEq

/-- `_build_deadline_map`: fold the targets, keeping the earliest
deadline per normalized (customer, stage) key; unparseable dates are
skipped. -/
def build_deadline_map (ts : List Target) : List ((String × String) × ℚ) :=
  ts.foldl
    (fun m t =>
      match t.by_ with
      | none => m
      | some b =>
        let key := (pyNorm t.cust, pyNorm t.stg)
        match m.find? (fun p => p.1 = key) with
        | none => m ++ [(key, b)]
        | some p => if b < p.2 then (key, b) :: m.eraseP (fun q => q.1 = key) else m)
    []

/-- Dictionary lookup in the deadline map (`dl_map.get(dkey)`). -/
def dlGet (m : List ((String × String) × ℚ)) (k : String × String) : Option ℚ :=
  (m.find? (fun p => p.1 = k)).map (·.2)

/-! ## Interval Consolidator: clipping

`enforce_non_preemptive_finish_started` processes each employee/day/
segment: rows overlapping the segment are clamped to it, with the
`Hours` column overwritten by the clamped duration, and rows whose
clamped window is empty (or whose timestamps are `NaT`) never enter the
pending list. -/

/-- A pending fragment inside one segment: the original row `base`, the
clamped bounds `start ≤ stop`, and (for provenance statements only) a
copy `ostart` of the row's original, pre-clip start. -/
structure Frag where
  base : Row
  start : ℚ
  stop : ℚ
  ostart : ℚ
  deriving DecidableEq

def taskKeyF (f : Frag) : String × String × String × String × String := task_key f.base

def dlKeyF (f : Frag) : String × String := dlKey f.base

/-- Clamped duration of a fragment (the overwritten `Hours` value). -/
def fragDur (f : Frag) : ℚ := qsub f.stop f.start

/-- The pending-list construction for one segment (lines 1011–1025):
skip `NaT` rows, keep rows overlapping `(segS, segE)`, clamp them, and
drop empty clamped windows. -/
def clipSegment (segS segE : ℚ) (rows : List Row) : List Frag :=
  rows.filterMap (fun r =>
    match r.start, r.stop with
    | some rs, some re =>
      if re > segS ∧ rs < segE then
        let cs := max rs segS
        let ce := min re segE
        if ce > cs then some ⟨r, cs, ce, rs⟩ else none
      else none
    | _, _ => none)

/-- Stable sort key of `sorted(pending, key=(start, end))`. -/
def fragLeB (a b : Frag) : Bool :=
  decide (a.start < b.start) || (decide (a.start = b.start) && decide (a.stop ≤ b.stop))

def fragLe (a b : Frag) : Prop := fragLeB a b = true

instance : DecidableRel fragLe := fun a b => decEq (fragLeB a b) true

/-- `sorted(pending, key=lambda r: (r[c_sta], r[c_end]))` (stable). -/
def sortPending (l : List Frag) : List Frag := l.insertionSort fragLe

/-- Sum of clamped durations, folded with `qadd` so it evaluates. -/
def durSum (l : List Frag) : ℚ := l.foldr (fun f acc => qadd (fragDur f) acc) 0

/-- One emitted interval of the consolidator, instrumented for the
specification statements: the emitted fragment, the list of pending
fragments it accounts for (`r0` alone on a reject, `r0` plus the merged
same-key fragments on an accept), and whether this step was a reject
(`violates_deadline` was set). -/
abbrev Emit := Frag × List Frag × Bool

/-- `start0 = max(cursor, r0[c_sta])` (line 1040). -/
def pstart0 (cursor : ℚ) (r0 : Frag) : ℚ := max cursor r0.start

/-- The later unconsumed same-key fragments (`same_idxs`, lines
1044–1054). -/
def psame (r0 : Frag) (rest : List Frag) : List Frag :=
  rest.filter (fun rj => decide (taskKeyF rj = taskKeyF r0))

/-- The later unconsumed other-key fragments (the `k` scan of lines
1061–1070 skips `used_indices` and `same_idxs`). -/
def pothers (r0 : Frag) (rest : List Frag) : List Frag :=
  rest.filter (fun rk => decide (taskKeyF rk ≠ taskKeyF r0))

/-- `proposed_end = start0 + total_h` (line 1056), where
`total_h = dur0_h + Σ same-key durations`. -/
def pproposed (cursor : ℚ) (r0 : Frag) (rest : List Frag) : ℚ :=
  qadd (pstart0 cursor r0) (qadd (fragDur r0) (durSum (psame r0 rest)))

/-- The `violates_deadline` flag (lines 1059–1074): some still-pending
other-key fragment that starts before the proposed end has a deadline
earlier than the proposed end, or the merge would cross the segment
end. -/
def pviolates (dl : String × String → Option ℚ) (segE cursor : ℚ)
    (r0 : Frag) (rest : List Frag) : Bool :=
  (pothers r0 rest).any (fun rk =>
    decide (rk.start < pproposed cursor r0 rest) &&
    (match dl (dlKeyF rk) with
     | some d => decide (d < pproposed cursor r0 rest)
     | none => false)) ||
  decide (pproposed cursor r0 rest > segE)

/-- `end0 = min(start0 + dur0, seg_end)` on a reject (line 1077). -/
def prejEnd (segE cursor : ℚ) (r0 : Frag) : ℚ :=
  min (qadd (pstart0 cursor r0) (fragDur r0)) segE

/-- `endm = min(proposed_end, seg_end)` on an accept (line 1090). -/
def paccEnd (segE cursor : ℚ) (r0 : Frag) (rest : List Frag) : ℚ :=
  min (pproposed cursor r0 rest) segE

/-- The consolidation loop over one segment's pending list
(lines 1030–1098), written as fuel-indexed structural recursion: one
pending fragment is retired per step, so `fuel = pending.length`
(supplied by `consolidateSegment`) always suffices.  The source's
`used_indices` bookkeeping is realised by removing the merged same-key
fragments from the remainder on an accept; a reject emits `r0` alone
and leaves its same-key siblings pending. -/
def processSegment (dl : String × String → Option ℚ) (segE : ℚ) :
    ℕ → ℚ → List Frag → List Emit
  | 0, _, _ => []
  | _ + 1, _, [] => []
  | fuel + 1, cursor, r0 :: rest =>
    if pviolates dl segE cursor r0 rest then
      (⟨r0.base, pstart0 cursor r0, prejEnd segE cursor r0, r0.ostart⟩, [r0], true) ::
        processSegment dl segE fuel (prejEnd segE cursor r0) rest
    else
      (⟨r0.base, pstart0 cursor r0, paccEnd segE cursor r0 rest, r0.ostart⟩,
          r0 :: psame r0 rest, false) ::
        processSegment dl segE fuel (paccEnd segE cursor r0 rest) (pothers r0 rest)

/-- Consolidation of one employee/day segment: clip, stable sort, then
run the merge loop with the cursor at the segment start. -/
def consolidateSegment (dl : String × String → Option ℚ)
    (segS segE : ℚ) (rows : List Row) : List Emit :=
  let pending := sortPending (clipSegment segS segE rows)
  processSegment dl segE pending.length segS pending

/-! ## Day grouping (shared by both dataframe stages)

Both stages sort by `(employee, start, end)` and group by the employee
and the calendar date of the parsed start (`start.dt.date`).  We model
one employee's rows; pandas `groupby` drops the `NaT` day key, so rows
with a missing start belong to no day group. -/

/-- `none`-last strict comparison on optional timestamps (pandas
`sort_values` places `NaT` last). -/
def onLtB (x y : Option ℚ) : Bool :=
  match x, y with
  | some a, some b => decide (a < b)
  | some _, none => true
  | none, _ => false

/-- `none`-last non-strict comparison on optional timestamps. -/
def onLeB (x y : Option ℚ) : Bool :=
  match x, y with
  | some a, some b => decide (a ≤ b)
  | some _, none => true
  | none, some _ => false
  | none, none => true

/-- Stable sort key of `sort_values([c_sta, c_end])` (single employee). -/
def rowLeB (a b : Row) : Bool :=
  onLtB a.start b.start || (decide (a.start = b.start) && onLeB a.stop b.stop)

def rowLe (a b : Row) : Prop := rowLeB a b = true

instance : DecidableRel rowLe := fun a b => decEq (rowLeB a b) true

def sortRows (l : List Row) : List Row := l.insertionSort rowLe

/-- First-occurrence deduplication (the order in which day groups and
stage families appear when iterating a pandas groupby of a sorted
frame). -/
def dedupFirst {α : Type} [DecidableEq α] (seen : List α) : List α → List α
  | [] => []
  | a :: rest =>
    if a ∈ seen then dedupFirst seen rest else a :: dedupFirst (a :: seen) rest

/-- The calendar-day keys of one employee's rows, in order of
appearance; rows with `NaT` start contribute no key. -/
def dayKeys (l : List Row) : List ℤ :=
  dedupFirst [] (l.filterMap (fun r => r.start.map dayOf))

/-- The rows of one day group (preserving the sorted order). -/
def rowsOfDay (d : ℤ) (l : List Row) : List Row :=
  l.filter (fun r => decide (r.start.map dayOf = some d))

/-- Minimum of a rational list, `none` on the empty list (pandas
`Series.min()` with `NaT` already filtered out). -/
def minQ : List ℚ → Option ℚ
  | [] => none
  | x :: rest =>
    match minQ rest with
    | none => some x
    | some m => some (min x m)

/-- Maximum of a rational list, `none` on the empty list. -/
def maxQ : List ℚ → Option ℚ
  | [] => none
  | x :: rest =>
    match maxQ rest with
    | none => some x
    | some m => some (max x m)

/-- Lines 1001–1006: when `day_segments_for` yields no segments, the
source computes the day's observed bounds `first`/`last` and — when both
exist and `first < last` — falls back to the single segment
`[first.normalize() + 8h, first.normalize() + 16h)`.  (pandas
`Series.min`/`max` skip `NaT`.) -/
def fallbackSegments (dayRows : List Row) : List (ℚ × ℚ) :=
  let first := minQ (dayRows.filterMap (·.start))
  let last := maxQ (dayRows.filterMap (·.stop))
  match first, last with
  | some f, some l =>
    if f < l then
      [(qadd (dayStart (dayOf f)) 8, qadd (dayStart (dayOf f)) 16)]
    else []
  | _, _ => []

/-- The segments used for one day: the shift-template lookup
(`day_segments_for`, abstracted as `segsFor` over the day index), or the
synthetic fallback when it is empty. -/
def daySegments (segsFor : ℤ → List (ℚ × ℚ)) (d : ℤ) (dayRows : List Row) :
    List (ℚ × ℚ) :=
  let segments := segsFor d
  if segments.isEmpty then fallbackSegments dayRows else segments

/-- One employee/day of the consolidator: each segment is processed
independently over the full day group. -/
def consolidateDay (dl : String × String → Option ℚ)
    (segsFor : ℤ → List (ℚ × ℚ)) (d : ℤ) (dayRows : List Row) : List Emit :=
  (daySegments segsFor d dayRows).flatMap
    (fun se => consolidateSegment dl se.1 se.2 dayRows)

/-- One employee of the consolidator: sort, group by day, concatenate
the per-day emissions (`out_rows`). -/
def consolidateEmployee (dl : String × String → Option ℚ)
    (segsFor : ℤ → List (ℚ × ℚ)) (rows : List Row) : List Emit :=
  let sorted := sortRows rows
  (dayKeys sorted).flatMap (fun d => consolidateDay dl segsFor d (rowsOfDay d sorted))

/-- An emitted fragment written back as a dataframe row
(`rr = dict(r0)` with `start`/`end`/`Hours` overwritten). -/
def emitRow (f : Frag) : Row :=
  { f.base with start := some f.start, stop := some f.stop,
                hours := some (qsub f.stop f.start) }

/-- The final `Hours` recomputation (lines 1102–1104 / 1191–1193):
`Hours = end - start`, `NaT` propagating to a missing value. -/
def recomputeRow (r : Row) : Row :=
  { r with hours :=
      match r.stop, r.start with
      | some e, some s => some (qsub e s)
      | _, _ => none }

/-- `enforce_non_preemptive_finish_started` for one employee: emit the
consolidated rows, or — when nothing was emitted — the parsed input
unchanged (`out_rows if out_rows else wdf`); then recompute `Hours` and
re-sort. -/
def enforce_non_preemptive_finish_started (dl : String × String → Option ℚ)
    (segsFor : ℤ → List (ℚ × ℚ)) (rows : List Row) : List Row :=
  let es := consolidateEmployee dl segsFor rows
  sortRows ((if es.isEmpty then rows else es.map (fun e => emitRow e.1)).map recomputeRow)

/-! ## Stage Batcher (`batch_like_tasks`) -/

/-- The re-timing loop over one day's reordered rows (lines 1163–1188),
instrumented with the source row of each emission: rows with missing
timestamps or non-positive duration pass through with the cursor
untouched; a deadline violation keeps the original placement and moves
the cursor past the original end; otherwise the row is re-timed to
`[max(cursor, start), +duration)`. -/
def batchRelay (dl : String × String → Option ℚ) (cursor : ℚ) :
    List Row → List (Row × Row)
  | [] => []
  | r :: rest =>
    match r.start, r.stop with
    | some os, some oe =>
      -- `dur = float(r.get(c_hours, 0.0) or 0.0)`: a missing value maps
      -- to 0 and therefore to the pass-through branch
      let dur := r.hours.getD 0
      if dur ≤ 0 then (r, r) :: batchRelay dl cursor rest
      else
        let startNew := max cursor os
        let endNew := qadd startNew dur
        let violates :=
          match dl (dlKey r) with
          | some d => decide (endNew > d)
          | none => false
        if violates then (r, r) :: batchRelay dl (max cursor oe) rest
        else
          ({ r with start := some startNew, stop := some endNew,
                    hours := some dur }, r) :: batchRelay dl endNew rest
    | _, _ => (r, r) :: batchRelay dl cursor rest

/-- One employee/day of the batcher: group rows by `_stage_base` family
in order of first appearance in the start-sorted day (ties between
families with equal earliest start take appearance order), then re-lay
them with the cursor at the day's first original start. -/
def batchDay (dl : String × String → Option ℚ) (gday : List Row) :
    List (Row × Row) :=
  match gday with
  | [] => []
  | g0 :: _ =>
    let bases := dedupFirst [] (gday.map (fun r => stage_base r.stg))
    let reordered := bases.flatMap (fun b => gday.filter (fun r => decide (stage_base r.stg = b)))
    -- `cursor = gday.iloc[0][c_sta]`; day-group rows always have a
    -- parsed start, so the `getD` default is never consulted
    batchRelay dl (g0.start.getD 0) reordered

/-- One employee of the batcher: sort, group by day, concatenate. -/
def batchEmployee (dl : String × String → Option ℚ) (rows : List Row) :
    List (Row × Row) :=
  let sorted := sortRows rows
  (dayKeys sorted).flatMap (fun d => batchDay dl (rowsOfDay d sorted))

/-- `batch_like_tasks` for one employee, with the empty-output fallback,
the `Hours` recomputation and the final re-sort. -/
def batch_like_tasks (dl : String × String → Option ℚ) (rows : List Row) :
    List Row :=
  let prs := batchEmployee dl rows
  sortRows ((if prs.isEmpty then rows else prs.map (·.1)).map recomputeRow)

/-! ## Carryover ledger and propagation (`inject_carryovers_into_cfg`)

The database tables are modelled explicitly; dates are day indices
(`carry_to`, `off_date`), and shift times-of-day are rational hours
(the `HH:MM` parse of `_hhmm_to_dt` is data, not logic, here). -/

/-- A row of `employee_shifts`. -/
structure Shift where
  empId : ℕ
  wd : ℤ
  tstart : ℚ
  tend : ℚ
  deriving DecidableEq

/-- A row of `task_carryovers`. -/
structure Carry where
  id : ℕ
  employee : String
  customer : String
  job : String
  stage : String
  hoursRemaining : ℚ
  carryTo : ℤ
  consumed : Bool
  deriving DecidableEq

/-- The relevant database state. -/
structure DB where
  employees : List (ℕ × String)
  shifts : List Shift
  daysOff : List (ℕ × ℤ)
  carryovers : List Carry
  deriving DecidableEq

/-- `_build_name_to_id`: a dict comprehension, so a later row with the
same name overwrites an earlier one. -/
def nameToId (db : DB) (n : String) : Option ℕ :=
  (db.employees.reverse.find? (fun p => decide (p.2 = n))).map (·.1)

/-- `_employee_has_day_off`. -/
def hasDayOff (db : DB) (i : ℕ) (d : ℤ) : Bool :=
  db.daysOff.any (fun p => decide (p.1 = i) && decide (p.2 = d))

def shiftLe (a b : Shift) : Prop := decide (a.tstart ≤ b.tstart) = true

instance : DecidableRel shiftLe := fun a b => decEq (decide (a.tstart ≤ b.tstart)) true

/-- `_day_shifts_for_employee` (`... WHERE employee_id=? AND weekday=?
ORDER BY start`). -/
def dayShiftsFor (db : DB) (i : ℕ) (wd : ℤ) : List Shift :=
  (db.shifts.filter (fun s => decide (s.empId = i) && decide (s.wd = wd))).insertionSort shiftLe

/-- The label of an injected block:
`f"Carryover: {stage} ({customer} – {job})"`. -/
def carryLabel (e : Carry) : String :=
  "Carryover: " ++ e.stage ++ " (" ++ e.customer ++ " – " ++ e.job ++ ")"

/-- One entry appended to `cfg["special_projects"]`. -/
structure Block where
  employee : String
  bstart : ℚ
  bend : ℚ
  label : String
  deriving DecidableEq

/-- The inner `for (s, e) in shifts` loop: allocate
`min(hours_remaining, capacity)` at the start of each positive-capacity
segment, stopping once the remainder falls to the `1e-6` tolerance.
Each block is paired with the capacity of its segment (instrumentation
for the capacity statements); the second component is the remaining
hours afterwards. -/
def allocShifts (emp lab : String) (d : ℤ) :
    ℚ → List Shift → List (Block × ℚ) × ℚ
  | hr, [] => ([], hr)
  | hr, sh :: rest =>
    let startDt := qadd (dayStart d) sh.tstart
    let endDt := qadd (dayStart d) sh.tend
    let cap := max 0 (qsub endDt startDt)
    if cap ≤ 0 then allocShifts emp lab d hr rest
    else
      let useH := min hr cap
      let b : Block := ⟨emp, startDt, qadd startDt useH, lab⟩
      let hr' := qsub hr useH
      if hr' ≤ eps then ([(b, cap)], hr')
      else
        let pr := allocShifts emp lab d hr' rest
        ((b, cap) :: pr.1, pr.2)

/-- The `while hours_remaining > 1e-6 and d <= window_end.date()` loop,
fuel-indexed on the number of remaining days (one day per step, so
`(we + 1 - d).toNat` suffices). -/
def allocDays (db : DB) (i : ℕ) (emp lab : String) (we : ℤ) :
    ℕ → ℚ → ℤ → List (Block × ℚ)
  | 0, _, _ => []
  | fuel + 1, hr, d =>
    if hr > eps ∧ d ≤ we then
      if hasDayOff db i d then allocDays db i emp lab we fuel hr (d + 1)
      else
        let shifts := dayShiftsFor db i (weekday d)
        if shifts.isEmpty then allocDays db i emp lab we fuel hr (d + 1)
        else
          let pr := allocShifts emp lab d hr shifts
          pr.1 ++ allocDays db i emp lab we fuel pr.2 (d + 1)
    else []

/-- Whether a selected entry passes the per-entry guards: the employee
name resolves to a truthy id (`if not emp_id: continue`) and
`hours_remaining > 0`. -/
def passes (db : DB) (e : Carry) : Prop :=
  (nameToId db e.employee).getD 0 ≠ 0 ∧ e.hoursRemaining > 0

instance (db : DB) (e : Carry) : Decidable (passes db e) := by
  unfold passes; infer_instance

/-- The blocking intervals injected for one ledger entry (lines
1247–1283): nothing when a guard fails, otherwise the day/segment
allocation walk starting at `carry_to`. -/
def injectEntry (db : DB) (we : ℤ) (e : Carry) : List (Block × ℚ) :=
  if (nameToId db e.employee).getD 0 = 0 then []
  else if e.hoursRemaining ≤ 0 then []
  else
    allocDays db ((nameToId db e.employee).getD 0) e.employee (carryLabel e) we
      ((we + 1 - e.carryTo).toNat) e.hoursRemaining e.carryTo

/-- Codepoint order on characters (UTF-8 byte order, as used by
SQLite's `ORDER BY` on text, coincides with codepoint order). -/
def charLtB (a b : Char) : Bool := decide (a.toNat < b.toNat)

/-- Lexicographic strict order on character lists. -/
def strLtChars : List Char → List Char → Bool
  | [], [] => false
  | [], _ :: _ => true
  | _ :: _, [] => false
  | a :: as, b :: bs => charLtB a b || (decide (a = b) && strLtChars as bs)

/-- Non-strict text order (written out because the core `String`
comparison does not reduce in the kernel). -/
def strLeB (a b : String) : Bool := strLtChars a.data b.data || decide (a.data = b.data)

def selLe (a b : Carry) : Prop :=
  (decide (a.carryTo < b.carryTo) ||
    (decide (a.carryTo = b.carryTo) && strLeB a.employee b.employee)) = true

instance : DecidableRel selLe := fun _ _ => decEq _ true

/-- The selection query: `SELECT * FROM task_carryovers WHERE consumed=0
AND carry_to>=? AND carry_to<=? ORDER BY carry_to, employee`. -/
def selectCarryovers (db : DB) (ws we : ℤ) : List Carry :=
  (db.carryovers.filter
      (fun e => !e.consumed && decide (ws ≤ e.carryTo) && decide (e.carryTo ≤ we))).insertionSort selLe

/-- The consumed-flag update performed by the run: every selected entry
that passed the guards gets `consumed=1` (`UPDATE ... WHERE id=?`). -/
def consumedUpdate (db : DB) (ws we : ℤ) (c : Carry) : Carry :=
  if (selectCarryovers db ws we).any
      (fun e => decide (passes db e) && decide (e.id = c.id)) then
    { c with consumed := true }
  else c

/-- `inject_carryovers_into_cfg` (single run): the updated ledger plus
the blocking intervals appended to `cfg["special_projects"]`, in entry
order. -/
def inject_carryovers_into_cfg (db : DB) (ws we : ℤ) : DB × List Block :=
  let sel := selectCarryovers db ws we
  let blocks := sel.flatMap (fun e => (injectEntry db we e).map (·.1))
  ({ db with carryovers := db.carryovers.map (consumedUpdate db ws we) }, blocks)

/-- Sum of injected block lengths, folded with `qadd`. -/
def blockSum (l : List (Block × ℚ)) : ℚ :=
  l.foldr (fun p acc => qadd (qsub p.1.bend p.1.bstart) acc) 0

/-! ## Derived notions used by the statements -/

/-- The plain emitted fragments of a consolidator run. -/
def outRows (l : List Emit) : List Frag := l.map (·.1)

/-- No merge in this segment run was rejected. -/
def noReject (l : List Emit) : Prop := ∀ e ∈ l, e.2.2 = false

instance (l : List Emit) : Decidable (noReject l) := by
  unfold noReject; infer_instance

/-- Total clamped duration carried by one task identity key. -/
def keyDurSum (k : String × String × String × String × String)
    (l : List Frag) : ℚ :=
  durSum (l.filter (fun f => decide (taskKeyF f = k)))

/-- The empty Deadline Index (an empty `dl_map` imposes no constraint). -/
def dlNone : String × String → Option ℚ := fun _ => none

/-! ## Concrete data used in closed runs of the model -/

/-- 4h of key (`c1`,`j`,`s`,`st`,` `) at `[0,4)`. -/
def cexRowA : Row := ⟨"c1", "j", "s", "st", "", some 0, some 4, some 4⟩

/-- 5h of key (`c2`,`j`,`s`,`st`,` `) at `[1,6)`. -/
def cexRowB : Row := ⟨"c2", "j", "s", "st", "", some 1, some 6, some 5⟩

/-- Two fragments of one key: `[1,2)` and `[3,4)`. -/
def witRowF1 : Row := ⟨"c1", "j", "s", "st", "", some 1, some 2, some 1⟩

def witRowF2 : Row := ⟨"c1", "j", "s", "st", "", some 3, some 4, some 1⟩

/-- The accepted merged emission of `witRowF1`/`witRowF2` in segment
`[0,8)`: one block `[1,3)` accounting for both clipped fragments. -/
def witEmit : Emit :=
  (⟨witRowF1, 1, 3, 1⟩, [⟨witRowF1, 1, 2, 1⟩, ⟨witRowF2, 3, 4, 3⟩], false)

/-- A valid 1h task, a missing-start row and a missing-end row. -/
def rOK : Row := ⟨"c", "j", "s", "Y", "", some 1, some 2, some 1⟩

def rNatS : Row := ⟨"c", "j", "s", "X", "", none, some 2, some 1⟩

def rNatE : Row := ⟨"c", "j", "s", "X", "", some 1, none, some 1⟩

/-- A task `[1,3)` on day 0 (observed bounds 01:00–03:00). -/
def zRow : Row := ⟨"c", "j", "s", "Z", "", some 1, some 3, some 2⟩

/-- A deadline map with an 11:00 target for normalized key (`c`,`y`). -/
def dlWit : String × String → Option ℚ :=
  dlGet (build_deadline_map [⟨"C", "Y", some 11⟩, ⟨"C", "Y", some 12⟩])

/-- A 1h task of customer `C`, stage `Y`, at `[9,10)`. -/
def rowD : Row := ⟨"C", "j", "s", "Y", "", some 9, some 10, some 1⟩

/-- Scenario-C-like day: two `Sand` stages split by a `Paint` stage. -/
def rSandA : Row := ⟨"c", "j", "s", "Sand 1", "", some 9, some 10, some 1⟩

def rPaint : Row := ⟨"c", "j", "s", "Paint", "", some 10, some 11, some 1⟩

def rSandB : Row := ⟨"c", "j", "s", "Sand 2", "", some 13, some 14, some 1⟩

/-- The batcher's output placement of `rPaint` in that day: moved after
`Sand 2`, to `[14,15)`. -/
def rPaintMoved : Row := { rPaint with start := some 14, stop := some 15 }

/-- A 5h ledger entry for employee `A` resuming day 1. -/
def entryD : Carry := ⟨1, "A", "cu", "jo", "st", 5, 1, false⟩

/-- Scenario-D-like database: employee `A` (id 1) works Tuesday
(weekday 1) 08:00–12:00 and 13:00–16:00; one 5h entry resuming day 1. -/
def dbD : DB :=
  { employees := [(1, "A")],
    shifts := [⟨1, 1, 8, 12⟩, ⟨1, 1, 13, 16⟩],
    daysOff := [],
    carryovers := [entryD] }

/-- An already-consumed entry (for the selection-exclusion instance). -/
def eConsumed : Carry := ⟨9, "A", "cu", "jo", "st", 2, 1, true⟩

/-- Two unconsumed entries for the same employee resuming the same
Monday (day 0), employee `A` working 08:00–16:00 that weekday. -/
def dbO : DB :=
  { employees := [(1, "A")],
    shifts := [⟨1, 0, 8, 16⟩],
    daysOff := [],
    carryovers := [⟨1, "A", "cu", "jo", "st", 2, 0, false⟩,
                   ⟨2, "A", "cu2", "jo2", "st2", 3, 0, false⟩] }

/-- An entry whose employee name no longer resolves, next to a good
entry. -/
def ghostEntry : Carry := ⟨1, "ghost", "cu", "jo", "st", 2, 0, false⟩

def goodEntry : Carry := ⟨2, "A", "cu2", "jo2", "st2", 3, 0, false⟩

def dbS : DB :=
  { employees := [(1, "A")],
    shifts := [⟨1, 0, 8, 16⟩],
    daysOff := [],
    carryovers := [ghostEntry, goodEntry] }

/-- The two blocks `inject_carryovers_into_cfg` emits for `dbO`. -/
def blockO1 : Block := ⟨"A", 8, 10, "Carryover: st (cu – jo)"⟩

def blockO2 : Block := ⟨"A", 8, 11, "Carryover: st2 (cu2 – jo2)"⟩

/-! ## Basic lemmas about the kernel-friendly arithmetic -/

theorem qadd_eq (a b : ℚ) : qadd a b = a + b := by
  have ha : ((a.den : ℚ)) ≠ 0 := Nat.cast_ne_zero.mpr a.den_nz
  have hb : ((b.den : ℚ)) ≠ 0 := Nat.cast_ne_zero.mpr b.den_nz
  rw [qadd, Rat.mkRat_eq_div]
  push_cast
  rw [div_eq_iff (mul_ne_zero ha hb)]
  have h1 : (a.num : ℚ) = a * a.den := (div_eq_iff ha).mp (Rat.num_div_den a)
  have h2 : (b.num : ℚ) = b * b.den := (div_eq_iff hb).mp (Rat.num_div_den b)
  rw [h1, h2]
  ring

theorem qneg_eq (a : ℚ) : qneg a = -a := by
  rw [qneg, Rat.mkRat_eq_div]
  push_cast
  rw [neg_div, Rat.num_div_den]

theorem qsub_eq (a b : ℚ) : qsub a b = a - b := by
  rw [qsub, qadd_eq, qneg_eq, sub_eq_add_neg]

theorem durSum_nil : durSum [] = 0 := rfl

theorem durSum_cons (f : Frag) (l : List Frag) :
    durSum (f :: l) = fragDur f + durSum l := by
  show qadd (fragDur f) (durSum l) = _
  rw [qadd_eq]

theorem durSum_eq_sum (l : List Frag) : durSum l = (l.map fragDur).sum := by
  induction l with
  | nil => rfl
  | cons f rest ih => rw [durSum_cons, List.map_cons, List.sum_cons, ih]

theorem blockSum_nil : blockSum [] = 0 := rfl

theorem blockSum_cons (p : Block × ℚ) (l : List (Block × ℚ)) :
    blockSum (p :: l) = (p.1.bend - p.1.bstart) + blockSum l := by
  show qadd (qsub p.1.bend p.1.bstart) (blockSum l) = _
  rw [qadd_eq, qsub_eq]

theorem blockSum_append (l l' : List (Block × ℚ)) :
    blockSum (l ++ l') = blockSum l + blockSum l' := by
  induction l with
  | nil => rw [List.nil_append, blockSum_nil, zero_add]
  | cons p rest ih => rw [List.cons_append, blockSum_cons, blockSum_cons, ih, add_assoc]

/-! ## Key-sum lemmas for the Consolidator -/

theorem keyDurSum_nil (k : String × String × String × String × String) :
    keyDurSum k [] = 0 := rfl

theorem keyDurSum_cons (k : String × String × String × String × String)
    (f : Frag) (l : List Frag) :
    keyDurSum k (f :: l) =
      (if taskKeyF f = k then fragDur f else 0) + keyDurSum k l := by
  unfold keyDurSum
  by_cases h : taskKeyF f = k
  · simp [List.filter_cons, h, durSum_cons]
  · simp [List.filter_cons, h]

theorem keyDurSum_filter_self (k0 : String × String × String × String × String)
    (l : List Frag) :
    keyDurSum k0 (l.filter (fun f => decide (taskKeyF f ≠ k0))) = 0 := by
  simp only [ne_eq, decide_not]
  induction l with
  | nil => rfl
  | cons f rest ih =>
    by_cases h : taskKeyF f = k0
    · simp [List.filter_cons, h, ih]
    · simp [List.filter_cons, h, keyDurSum_cons, ih]

theorem keyDurSum_filter_ne (k k0 : String × String × String × String × String)
    (hne : k ≠ k0) (l : List Frag) :
    keyDurSum k (l.filter (fun f => decide (taskKeyF f ≠ k0))) = keyDurSum k l := by
  simp only [ne_eq, decide_not]
  induction l with
  | nil => rfl
  | cons f rest ih =>
    by_cases h : taskKeyF f = k0
    · simp [List.filter_cons, h, ih, keyDurSum_cons]
      exact fun hc => absurd hc.symm hne
    · simp [List.filter_cons, h, keyDurSum_cons, ih]

theorem keyDurSum_perm (k : String × String × String × String × String)
    {l l' : List Frag} (h : List.Perm l l') : keyDurSum k l = keyDurSum k l' := by
  unfold keyDurSum
  rw [durSum_eq_sum, durSum_eq_sum]
  exact ((h.filter _).map _).sum_eq

theorem keyDurSum_sortPending (k : String × String × String × String × String)
    (l : List Frag) : keyDurSum k (sortPending l) = keyDurSum k l :=
  keyDurSum_perm k (List.perm_insertionSort fragLe l)

/-! ## Conservation and rejection shape of the merge loop -/

theorem psame_durSum (r0 : Frag) (rest : List Frag) :
    durSum (psame r0 rest) = keyDurSum (taskKeyF r0) rest := rfl

theorem processSegment_conserve (dl : String × String → Option ℚ) (segE : ℚ) :
    ∀ (fuel : ℕ) (cursor : ℚ) (rows : List Frag), rows.length ≤ fuel →
      (∀ e ∈ processSegment dl segE fuel cursor rows, e.2.2 = false) →
      ∀ k, keyDurSum k (outRows (processSegment dl segE fuel cursor rows)) =
        keyDurSum k rows := by
  intro fuel
  induction fuel with
  | zero =>
    intro cursor rows hlen _ k
    have hr : rows = [] := List.length_eq_zero.mp (Nat.le_zero.mp hlen)
    subst hr
    rfl
  | succ fuel ih =>
    intro cursor rows hlen hnr k
    cases rows with
    | nil => rfl
    | cons r0 rest =>
      have hlen' : rest.length ≤ fuel := by
        simpa [List.length_cons] using Nat.succ_le_succ_iff.mp (by simpa using hlen)
      cases hv : pviolates dl segE cursor r0 rest with
      | true =>
        exfalso
        have hmem :
            (⟨r0.base, pstart0 cursor r0, prejEnd segE cursor r0, r0.ostart⟩,
              ([r0] : List Frag), true) ∈
              processSegment dl segE (fuel + 1) cursor (r0 :: rest) := by
          simp only [processSegment, hv, if_true]
          exact List.mem_cons_self _ _
        have hflag := hnr _ hmem
        simp at hflag
      | false =>
        have hstep : processSegment dl segE (fuel + 1) cursor (r0 :: rest) =
            (⟨r0.base, pstart0 cursor r0, paccEnd segE cursor r0 rest, r0.ostart⟩,
              r0 :: psame r0 rest, false) ::
              processSegment dl segE fuel (paccEnd segE cursor r0 rest)
                (pothers r0 rest) := by
          simp only [processSegment, hv, Bool.false_eq_true, if_false]
        rw [hstep]
        have hnr' : ∀ e ∈ processSegment dl segE fuel (paccEnd segE cursor r0 rest)
            (pothers r0 rest), e.2.2 = false := by
          intro e he
          exact hnr e (by rw [hstep]; exact List.mem_cons_of_mem _ he)
        have hlen'' : (pothers r0 rest).length ≤ fuel :=
          le_trans (List.length_filter_le _ _) hlen'
        have hrec := ih (paccEnd segE cursor r0 rest) (pothers r0 rest) hlen'' hnr'
        -- the accepted merge did not cross the segment end
        have hple : pproposed cursor r0 rest ≤ segE := by
          unfold pviolates at hv
          have hb := (Bool.or_eq_false_iff.mp hv).2
          exact le_of_not_lt (of_decide_eq_false hb)
        have hacc : paccEnd segE cursor r0 rest = pproposed cursor r0 rest :=
          min_eq_left hple
        have hdur : fragDur ⟨r0.base, pstart0 cursor r0,
            paccEnd segE cursor r0 rest, r0.ostart⟩ =
            fragDur r0 + durSum (psame r0 rest) := by
          show qsub (paccEnd segE cursor r0 rest) (pstart0 cursor r0) = _
          rw [hacc, pproposed, qsub_eq, qadd_eq, qadd_eq]
          ring
        show keyDurSum k (_ :: outRows (processSegment dl segE fuel _ _)) = _
        rw [keyDurSum_cons, keyDurSum_cons, hrec k]
        by_cases hk : taskKeyF r0 = k
        · subst hk
          have hhk : taskKeyF ⟨r0.base, pstart0 cursor r0,
              paccEnd segE cursor r0 rest, r0.ostart⟩ = taskKeyF r0 := rfl
          rw [if_pos hhk, if_pos rfl, hdur, psame_durSum]
          have hzero : keyDurSum (taskKeyF r0) (pothers r0 rest) = 0 :=
            keyDurSum_filter_self (taskKeyF r0) rest
          rw [hzero]
          ring
        · have hhk : taskKeyF ⟨r0.base, pstart0 cursor r0,
              paccEnd segE cursor r0 rest, r0.ostart⟩ = taskKeyF r0 := rfl
          rw [if_neg (hhk ▸ hk), if_neg hk]
          have hne : k ≠ taskKeyF r0 := fun hc => hk hc.symm
          have := keyDurSum_filter_ne k (taskKeyF r0) hne rest
          rw [show keyDurSum k (pothers r0 rest) =
              keyDurSum k (rest.filter (fun f => decide (taskKeyF f ≠ taskKeyF r0)))
              from rfl, this]

theorem processSegment_reject (dl : String × String → Option ℚ) (segE : ℚ) :
    ∀ (fuel : ℕ) (cursor : ℚ) (rows : List Frag),
      ∀ e ∈ processSegment dl segE fuel cursor rows, e.2.2 = true →
        ∃ f, e.2.1 = [f] ∧ f.start ≤ e.1.start ∧ fragDur e.1 ≤ fragDur f := by
  intro fuel
  induction fuel with
  | zero => intro cursor rows e he; simp [processSegment] at he
  | succ fuel ih =>
    intro cursor rows e he hrej
    cases rows with
    | nil => simp [processSegment] at he
    | cons r0 rest =>
      cases hv : pviolates dl segE cursor r0 rest with
      | true =>
        rw [show processSegment dl segE (fuel + 1) cursor (r0 :: rest) =
            (⟨r0.base, pstart0 cursor r0, prejEnd segE cursor r0, r0.ostart⟩,
              [r0], true) :: processSegment dl segE fuel (prejEnd segE cursor r0) rest
            from by simp only [processSegment, hv, if_true]] at he
        rcases List.mem_cons.mp he with hhead | htail
        · subst hhead
          refine ⟨r0, rfl, le_max_right _ _, ?_⟩
          show qsub (prejEnd segE cursor r0) (pstart0 cursor r0) ≤ fragDur r0
          rw [qsub_eq]
          have : prejEnd segE cursor r0 ≤ qadd (pstart0 cursor r0) (fragDur r0) :=
            min_le_left _ _
          rw [qadd_eq] at this
          linarith
        · exact ih _ _ e htail hrej
      | false =>
        rw [show processSegment dl segE (fuel + 1) cursor (r0 :: rest) =
            (⟨r0.base, pstart0 cursor r0, paccEnd segE cursor r0 rest, r0.ostart⟩,
              r0 :: psame r0 rest, false) ::
              processSegment dl segE fuel (paccEnd segE cursor r0 rest) (pothers r0 rest)
            from by simp only [processSegment, hv, Bool.false_eq_true, if_false]] at he
        rcases List.mem_cons.mp he with hhead | htail
        · subst hhead; simp at hrej
        · exact ih _ _ e htail hrej

/-- **C1** (amended): per employee/day/segment, when no merge of the
segment is rejected, the sum of emitted durations for each task
identity key equals the sum of the clipped input durations for that
key; a rejected step emits its fragment alone, with a start no earlier
than the fragment's clipped start and a duration no larger than the
fragment's clipped duration (so the clipped placement is preserved
exactly only when the running cursor has not passed it — see the
counterexample for a run where it is not). -/
theorem consolidator_conservation (dl : String × String → Option ℚ)
    (segS segE : ℚ) (rows : List Row) :
    (noReject (consolidateSegment dl segS segE rows) →
      ∀ k, keyDurSum k (outRows (consolidateSegment dl segS segE rows)) =
        keyDurSum k (clipSegment segS segE rows)) ∧
    (∀ e ∈ consolidateSegment dl segS segE rows, e.2.2 = true →
      ∃ f, e.2.1 = [f] ∧ f.start ≤ e.1.start ∧ fragDur e.1 ≤ fragDur f) := by
  constructor
  · intro hnr k
    have hcons := processSegment_conserve dl segE
      (sortPending (clipSegment segS segE rows)).length segS
      (sortPending (clipSegment segS segE rows)) le_rfl hnr k
    exact hcons.trans (keyDurSum_sortPending k _)
  · exact fun e he => processSegment_reject dl segE _ _ _ e he

/-- **C1 counterexample**: in segment `[0,8)` with fragments
`cexRowA = [0,4)` (key `c1`) and `cexRowB = [1,6)` (key `c2`), the `c2`
merge is rejected by the segment-end check and its fragment is emitted
as `[4,8)`: the key's output duration (4h) differs from its clipped
input duration (5h), and the emitted start/end/duration all differ from
the clipped input's. -/
theorem consolidator_conservation_cex :
    keyDurSum (task_key cexRowB)
        (outRows (consolidateSegment dlNone 0 8 [cexRowA, cexRowB])) ≠
      keyDurSum (task_key cexRowB) (clipSegment 0 8 [cexRowA, cexRowB]) ∧
    ∃ e ∈ consolidateSegment dlNone 0 8 [cexRowA, cexRowB], e.2.2 = true ∧
      ∀ f ∈ e.2.1,
        ¬(e.1.start = f.start ∧ e.1.stop = f.stop ∧ fragDur e.1 = fragDur f) := by
  decide

theorem consolidator_conservation_witness :
    noReject (consolidateSegment dlNone 0 8 [witRowF1, witRowF2]) ∧
    keyDurSum (task_key witRowF1)
        (outRows (consolidateSegment dlNone 0 8 [witRowF1, witRowF2])) =
      keyDurSum (task_key witRowF1) (clipSegment 0 8 [witRowF1, witRowF2]) :=
  ⟨by decide,
    (consolidator_conservation dlNone 0 8 [witRowF1, witRowF2]).1 (by decide)
      (task_key witRowF1)⟩

/-! ## Boundary respect (C2) -/

theorem exists_min_ostart :
    ∀ (l : List Frag), l ≠ [] → ∃ f ∈ l, ∀ g ∈ l, f.ostart ≤ g.ostart := by
  intro l
  induction l with
  | nil => intro h; exact absurd rfl h
  | cons a rest ih =>
    intro _
    cases rest with
    | nil =>
      exact ⟨a, List.mem_cons_self _ _, by
        intro g hg
        rcases List.mem_cons.mp hg with h | h
        · rw [h]
        · simp at h⟩
    | cons b rest' =>
      obtain ⟨m, hm, hmin⟩ := ih (by simp)
      by_cases hc : a.ostart ≤ m.ostart
      · refine ⟨a, List.mem_cons_self _ _, ?_⟩
        intro g hg
        rcases List.mem_cons.mp hg with h | h
        · rw [h]
        · exact le_trans hc (hmin g h)
      · refine ⟨m, List.mem_cons_of_mem _ hm, ?_⟩
        intro g hg
        rcases List.mem_cons.mp hg with h | h
        · rw [h]; exact le_of_not_le hc
        · exact hmin g h

theorem processSegment_bounds (dl : String × String → Option ℚ) (segE : ℚ) :
    ∀ (fuel : ℕ) (cursor : ℚ) (rows : List Frag),
      (∀ r ∈ rows, r.ostart ≤ r.start) →
      ∀ e ∈ processSegment dl segE fuel cursor rows,
        e.1.stop ≤ segE ∧
        ∃ f ∈ e.2.1, (∀ g ∈ e.2.1, f.ostart ≤ g.ostart) ∧ f.ostart ≤ e.1.start := by
  intro fuel
  induction fuel with
  | zero => intro cursor rows _ e he; simp [processSegment] at he
  | succ fuel ih =>
    intro cursor rows hrows e he
    cases rows with
    | nil => simp [processSegment] at he
    | cons r0 rest =>
      have hrest : ∀ r ∈ rest, r.ostart ≤ r.start :=
        fun r hr => hrows r (List.mem_cons_of_mem _ hr)
      have hr0 : r0.ostart ≤ r0.start := hrows r0 (List.mem_cons_self _ _)
      cases hv : pviolates dl segE cursor r0 rest with
      | true =>
        rw [show processSegment dl segE (fuel + 1) cursor (r0 :: rest) =
            (⟨r0.base, pstart0 cursor r0, prejEnd segE cursor r0, r0.ostart⟩,
              [r0], true) :: processSegment dl segE fuel (prejEnd segE cursor r0) rest
            from by simp only [processSegment, hv, if_true]] at he
        rcases List.mem_cons.mp he with hhead | htail
        · subst hhead
          constructor
          · exact min_le_right _ _
          · refine ⟨r0, List.mem_cons_self _ _, ?_, ?_⟩
            · intro g hg
              rcases List.mem_cons.mp hg with h | h
              · rw [h]
              · simp at h
            · exact le_trans hr0 (le_max_right _ _)
        · exact ih _ _ hrest e htail
      | false =>
        rw [show processSegment dl segE (fuel + 1) cursor (r0 :: rest) =
            (⟨r0.base, pstart0 cursor r0, paccEnd segE cursor r0 rest, r0.ostart⟩,
              r0 :: psame r0 rest, false) ::
              processSegment dl segE fuel (paccEnd segE cursor r0 rest) (pothers r0 rest)
            from by simp only [processSegment, hv, Bool.false_eq_true, if_false]] at he
        rcases List.mem_cons.mp he with hhead | htail
        · subst hhead
          constructor
          · exact min_le_right _ _
          · obtain ⟨f, hf, hfmin⟩ :=
              exists_min_ostart (r0 :: psame r0 rest) (by simp)
            refine ⟨f, hf, hfmin, ?_⟩
            have h1 : f.ostart ≤ r0.ostart := hfmin r0 (List.mem_cons_self _ _)
            exact le_trans h1 (le_trans hr0 (le_max_right _ _))
        · have hothers : ∀ r ∈ pothers r0 rest, r.ostart ≤ r.start :=
            fun r hr => hrest r (List.mem_of_mem_filter hr)
          exact ih _ _ hothers e htail

theorem clipSegment_ostart_le (segS segE : ℚ) (rows : List Row) :
    ∀ f ∈ clipSegment segS segE rows, f.ostart ≤ f.start := by
  intro f hf
  rw [clipSegment, List.mem_filterMap] at hf
  obtain ⟨r, _, heq⟩ := hf
  rcases hs : r.start with _ | rs <;> rcases he : r.stop with _ | re <;>
    rw [hs, he] at heq <;> simp at heq
  rcases heq with ⟨-, -, heq'⟩
  rw [← heq']
  exact le_sup_left

/-- **C2**: every interval emitted for a shift segment ends no later
than the segment end, and starts no earlier than the earliest original
(pre-clip) start among the fragments merged into it (a rejected
emission carries exactly its own fragment). -/
theorem consolidator_boundaries (dl : String × String → Option ℚ)
    (segS segE : ℚ) (rows : List Row) :
    ∀ e ∈ consolidateSegment dl segS segE rows,
      e.1.stop ≤ segE ∧
      ∃ f ∈ e.2.1, (∀ g ∈ e.2.1, f.ostart ≤ g.ostart) ∧ f.ostart ≤ e.1.start := by
  intro e he
  have hinv : ∀ r ∈ sortPending (clipSegment segS segE rows), r.ostart ≤ r.start := by
    intro r hr
    exact clipSegment_ostart_le segS segE rows r
      ((List.perm_insertionSort fragLe _).mem_iff.mp hr)
  exact processSegment_bounds dl segE _ segS _ hinv e he

theorem consolidator_boundaries_witness :
    witEmit ∈ consolidateSegment dlNone 0 8 [witRowF1, witRowF2] ∧
    (witEmit.1.stop ≤ 8 ∧
      ∃ f ∈ witEmit.2.1,
        (∀ g ∈ witEmit.2.1, f.ostart ≤ g.ostart) ∧ f.ostart ≤ witEmit.1.start) :=
  ⟨by decide,
    consolidator_boundaries dlNone 0 8 [witRowF1, witRowF2] witEmit (by decide)⟩

/-! ## The Batcher's re-timing loop -/

theorem batchRelay_deadline (dl : String × String → Option ℚ) :
    ∀ (cursor : ℚ) (rows : List Row), ∀ pr ∈ batchRelay dl cursor rows,
      ∀ d oe, dl (dlKey pr.2) = some d → pr.2.stop = some oe → oe ≤ d →
        ∃ oe', pr.1.stop = some oe' ∧ oe' ≤ d := by
  intro cursor rows
  induction rows generalizing cursor with
  | nil => intro pr hpr; simp [batchRelay] at hpr
  | cons r rest ih =>
    intro pr hpr d oe hdl hstop hle
    simp only [batchRelay] at hpr
    rcases hs : r.start with _ | os <;> rw [hs] at hpr
    · simp only [] at hpr
      rcases List.mem_cons.mp hpr with hh | ht
      · subst hh; exact ⟨oe, hstop, hle⟩
      · exact ih cursor pr ht d oe hdl hstop hle
    · rcases he : r.stop with _ | oe0 <;> rw [he] at hpr
      · simp only [] at hpr
        rcases List.mem_cons.mp hpr with hh | ht
        · subst hh; exact ⟨oe, hstop, hle⟩
        · exact ih cursor pr ht d oe hdl hstop hle
      · simp only [] at hpr
        split_ifs at hpr with hdur hviol
        · rcases List.mem_cons.mp hpr with hh | ht
          · subst hh; exact ⟨oe, hstop, hle⟩
          · exact ih cursor pr ht d oe hdl hstop hle
        · rcases List.mem_cons.mp hpr with hh | ht
          · subst hh; exact ⟨oe, hstop, hle⟩
          · exact ih _ pr ht d oe hdl hstop hle
        · rcases List.mem_cons.mp hpr with hh | ht
          · subst hh
            refine ⟨qadd (max cursor os) (r.hours.getD 0), rfl, ?_⟩
            rw [hdl] at hviol
            simpa using of_decide_eq_false (Bool.of_not_eq_true hviol)
          · exact ih _ pr ht d oe hdl hstop hle

theorem batchRelay_monotone (dl : String × String → Option ℚ) :
    ∀ (cursor : ℚ) (rows : List Row), ∀ pr ∈ batchRelay dl cursor rows,
      ∀ s, pr.2.start = some s → ∃ s', pr.1.start = some s' ∧ s ≤ s' := by
  intro cursor rows
  induction rows generalizing cursor with
  | nil => intro pr hpr; simp [batchRelay] at hpr
  | cons r rest ih =>
    intro pr hpr s hstart
    simp only [batchRelay] at hpr
    rcases hs : r.start with _ | os <;> rw [hs] at hpr
    · simp only [] at hpr
      rcases List.mem_cons.mp hpr with hh | ht
      · subst hh; exact ⟨s, hstart, le_refl s⟩
      · exact ih cursor pr ht s hstart
    · rcases he : r.stop with _ | oe0 <;> rw [he] at hpr
      · simp only [] at hpr
        rcases List.mem_cons.mp hpr with hh | ht
        · subst hh; exact ⟨s, hstart, le_refl s⟩
        · exact ih cursor pr ht s hstart
      · simp only [] at hpr
        split_ifs at hpr with hdur hviol
        · rcases List.mem_cons.mp hpr with hh | ht
          · subst hh; exact ⟨s, hstart, le_refl s⟩
          · exact ih cursor pr ht s hstart
        · rcases List.mem_cons.mp hpr with hh | ht
          · subst hh; exact ⟨s, hstart, le_refl s⟩
          · exact ih _ pr ht s hstart
        · rcases List.mem_cons.mp hpr with hh | ht
          · subst hh
            refine ⟨max cursor os, rfl, ?_⟩
            have : s = os := by
              have hso := hstart
              rw [hs] at hso
              exact (Option.some_injective _ hso).symm
            rw [this]
            exact le_max_right _ _
          · exact ih _ pr ht s hstart

theorem batchRelay_missing_passthrough (dl : String × String → Option ℚ) :
    ∀ (cursor : ℚ) (rows : List Row), ∀ pr ∈ batchRelay dl cursor rows,
      pr.2.start = none ∨ pr.2.stop = none → pr.1 = pr.2 := by
  intro cursor rows
  induction rows generalizing cursor with
  | nil => intro pr hpr; simp [batchRelay] at hpr
  | cons r rest ih =>
    intro pr hpr hmiss
    simp only [batchRelay] at hpr
    rcases hs : r.start with _ | os <;> rw [hs] at hpr
    · simp only [] at hpr
      rcases List.mem_cons.mp hpr with hh | ht
      · subst hh; rfl
      · exact ih cursor pr ht hmiss
    · rcases he : r.stop with _ | oe0 <;> rw [he] at hpr
      · simp only [] at hpr
        rcases List.mem_cons.mp hpr with hh | ht
        · subst hh; rfl
        · exact ih cursor pr ht hmiss
      · simp only [] at hpr
        split_ifs at hpr with hdur hviol
        · rcases List.mem_cons.mp hpr with hh | ht
          · subst hh; rfl
          · exact ih cursor pr ht hmiss
        · rcases List.mem_cons.mp hpr with hh | ht
          · subst hh; rfl
          · exact ih _ pr ht hmiss
        · rcases List.mem_cons.mp hpr with hh | ht
          · exfalso
            subst hh
            rcases hmiss with hm | hm
            · rw [hs] at hm; exact Option.some_ne_none _ hm
            · rw [he] at hm; exact Option.some_ne_none _ hm
          · exact ih _ pr ht hmiss

/-- Any emitted pair of `batchEmployee` comes from some run of the
re-timing loop. -/
theorem mem_batchEmployee {dl : String × String → Option ℚ} {rows : List Row}
    {pr : Row × Row} (h : pr ∈ batchEmployee dl rows) :
    ∃ cursor l, pr ∈ batchRelay dl cursor l := by
  simp only [batchEmployee, List.mem_flatMap] at h
  obtain ⟨d, -, hpr⟩ := h
  cases hg : rowsOfDay d (sortRows rows) with
  | nil => rw [hg] at hpr; simp [batchDay] at hpr
  | cons g0 rest =>
    rw [hg] at hpr
    simp only [batchDay] at hpr
    exact ⟨_, _, hpr⟩

/-- **C3**: for every interval processed by `batch_like_tasks` whose
(customer, stage) pair has a Deadline Target, if the original placement
ends on or before that deadline then so does the output placement — a
move is committed only when the moved end meets the deadline, and
otherwise the original start/end are kept. -/
theorem batcher_deadline_preservation (dl : String × String → Option ℚ)
    (rows : List Row) :
    ∀ pr ∈ batchEmployee dl rows, ∀ d oe,
      dl (dlKey pr.2) = some d → pr.2.stop = some oe → oe ≤ d →
        ∃ oe', pr.1.stop = some oe' ∧ oe' ≤ d := by
  intro pr hpr d oe hdl hstop hle
  obtain ⟨cursor, l, hrel⟩ := mem_batchEmployee hpr
  exact batchRelay_deadline dl cursor l pr hrel d oe hdl hstop hle

theorem batcher_deadline_preservation_witness :
    (rowD, rowD) ∈ batchEmployee dlWit [rowD] ∧
    ∃ oe', (rowD, rowD).1.stop = some oe' ∧ oe' ≤ 11 :=
  ⟨by decide,
    batcher_deadline_preservation dlWit [rowD] (rowD, rowD) (by decide) 11 10
      (by decide) (by decide) (by decide)⟩

/-- **C6**: every interval with parsed timestamps and positive duration
processed by `batch_like_tasks` is emitted with a start no earlier than
its original start (moved intervals start at `max(cursor, original
start)`; skipped and preserved intervals keep their original start). -/
theorem batcher_monotone (dl : String × String → Option ℚ) (rows : List Row) :
    ∀ pr ∈ batchEmployee dl rows, ∀ s oe,
      pr.2.start = some s → pr.2.stop = some oe → 0 < pr.2.hours.getD 0 →
        ∃ s', pr.1.start = some s' ∧ s ≤ s' := by
  intro pr hpr s _ hstart _ _
  obtain ⟨cursor, l, hrel⟩ := mem_batchEmployee hpr
  exact batchRelay_monotone dl cursor l pr hrel s hstart

theorem batcher_monotone_witness :
    (rPaintMoved, rPaint) ∈ batchEmployee dlNone [rSandA, rPaint, rSandB] ∧
    ∃ s', (rPaintMoved, rPaint).1.start = some s' ∧ 10 ≤ s' :=
  ⟨by decide,
    batcher_monotone dlNone [rSandA, rPaint, rSandB] (rPaintMoved, rPaint)
      (by decide) 10 11 (by decide) (by decide) (by decide)⟩

/-! ## Missing-timestamp handling (C8) -/

/-- **C8** (amended): intervals with a missing timestamp are never
merge/batch candidates — the consolidator's pending-list construction
skips them, and the batcher's loop passes them through unchanged with
the cursor untouched.  (They are *not* present in the stages' outputs in
general: the counterexample shows the consolidator omitting a
missing-end row and the batcher omitting a missing-start row.) -/
theorem missing_timestamp_handling :
    (∀ (segS segE : ℚ) (r : Row) (rows : List Row),
      r.start = none ∨ r.stop = none →
        clipSegment segS segE (r :: rows) = clipSegment segS segE rows) ∧
    (∀ (dl : String × String → Option ℚ) (cursor : ℚ) (rows : List Row),
      ∀ pr ∈ batchRelay dl cursor rows,
        pr.2.start = none ∨ pr.2.stop = none → pr.1 = pr.2) := by
  constructor
  · intro segS segE r rows hmiss
    rw [clipSegment, clipSegment, List.filterMap_cons]
    rcases hmiss with hm | hm
    · rw [hm]
    · rw [hm]
      rcases hs : r.start with _ | rs <;> rfl
  · intro dl cursor rows pr hpr hmiss
    exact batchRelay_missing_passthrough dl cursor rows pr hpr hmiss

/-- **C8 counterexample**: next to a valid task, a missing-end row is
absent from the consolidator's output and a missing-start row is absent
from the batcher's output — neither is passed through. -/
theorem missing_timestamp_cex :
    rNatE ∉ enforce_non_preemptive_finish_started dlNone (fun _ => [(0, 24)])
      [rOK, rNatE] ∧
    rNatS ∉ batch_like_tasks dlNone [rOK, rNatS] := by
  decide

theorem missing_timestamp_handling_witness :
    clipSegment 0 24 [rNatS] = clipSegment 0 24 [] ∧
    (rNatE, rNatE).1 = (rNatE, rNatE).2 :=
  ⟨missing_timestamp_handling.1 0 24 rNatS [] (Or.inl rfl),
    missing_timestamp_handling.2 dlNone 0 [rNatE] (rNatE, rNatE) (by decide)
      (Or.inr rfl)⟩

/-! ## The synthetic-segment fallback (C7) -/

/-- **C7** (code behaviour at the failing input): on a day whose tasks
are observed between 01:00 and 03:00 and for which no shift-template
segments exist, the source synthesizes the fixed segment 08:00–16:00 of
that day — not a segment spanning the observed task bounds `(1, 3)`. -/
theorem synthetic_fallback_behavior :
    daySegments (fun _ => []) 0 [zRow] = [(8, 16)] ∧
    fallbackSegments [zRow] = [(8, 16)] ∧
    ((8 : ℚ), (16 : ℚ)) ≠ ((1 : ℚ), (3 : ℚ)) := by
  decide

/-! ## Carryover propagation -/

theorem flatMap_eq_nil_of {α β : Type} (l : List α) (f : α → List β)
    (h : ∀ a ∈ l, f a = []) : l.flatMap f = [] := by
  induction l with
  | nil => rfl
  | cons a rest ih =>
    rw [List.flatMap_cons, h a (List.mem_cons_self _ _),
      ih (fun b hb => h b (List.mem_cons_of_mem _ hb)), List.nil_append]

theorem flatMap_filter_of {α β : Type} (l : List α) (p : α → Bool) (f : α → List β)
    (h : ∀ a ∈ l, p a = false → f a = []) :
    l.flatMap f = (l.filter p).flatMap f := by
  induction l with
  | nil => rfl
  | cons a rest ih =>
    have ih' := ih (fun b hb hpb => h b (List.mem_cons_of_mem _ hb) hpb)
    cases hp : p a with
    | true => rw [List.flatMap_cons, List.filter_cons_of_pos hp, List.flatMap_cons, ih']
    | false =>
      rw [List.flatMap_cons, h a (List.mem_cons_self _ _) hp, List.nil_append,
        List.filter_cons_of_neg (by simp [hp]), ih']

theorem mem_selectCarryovers {db : DB} {ws we : ℤ} {e : Carry} :
    e ∈ selectCarryovers db ws we ↔
      e ∈ db.carryovers ∧ e.consumed = false ∧ ws ≤ e.carryTo ∧ e.carryTo ≤ we := by
  unfold selectCarryovers
  rw [(List.perm_insertionSort selLe _).mem_iff, List.mem_filter]
  simp [and_assoc]

/-- **C4**: the run updates exactly the `consumed` flags (via
`consumedUpdate`); the selection query excludes consumed entries; the
flag update never clears a set flag (so a flag goes `false → true` at
most once across any run sequence); and a second run against the
updated database emits no blocking intervals at all — in particular
none for an entry that was fully allocated and marked consumed. -/
theorem exactly_once_consumption (db : DB) (ws we : ℤ) :
    ((inject_carryovers_into_cfg db ws we).1.carryovers =
      db.carryovers.map (consumedUpdate db ws we)) ∧
    (∀ e : Carry, e.consumed = true → e ∉ selectCarryovers db ws we) ∧
    (∀ c : Carry, c.consumed = true → (consumedUpdate db ws we c).consumed = true) ∧
    (inject_carryovers_into_cfg (inject_carryovers_into_cfg db ws we).1 ws we).2 = [] := by
  refine ⟨rfl, ?_, ?_, ?_⟩
  · intro e hcons hmem
    have h := (mem_selectCarryovers.mp hmem).2.1
    rw [hcons] at h
    exact Bool.true_eq_false.mp h
  · intro c hc
    unfold consumedUpdate
    split_ifs with h
    · rfl
    · exact hc
  · apply flatMap_eq_nil_of
    intro e hmem
    have hsel := mem_selectCarryovers.mp hmem
    obtain ⟨hin, hcons, hws, hwe⟩ := hsel
    have hin' : e ∈ db.carryovers.map (consumedUpdate db ws we) := hin
    obtain ⟨c, hc, heq⟩ := List.mem_map.mp hin'
    have hinj : injectEntry (inject_carryovers_into_cfg db ws we).1 we e = [] := by
      unfold consumedUpdate at heq
      split_ifs at heq with hcond
      · rw [← heq] at hcons
        exact absurd hcons (by simp)
      · -- the entry was selected in the first run but failed a guard
        subst heq
        have hcsel : c ∈ selectCarryovers db ws we :=
          mem_selectCarryovers.mpr ⟨hc, hcons, hws, hwe⟩
        have hnp : ¬ passes db c := by
          intro hp
          exact hcond (List.any_eq_true.mpr ⟨c, hcsel, by simp [hp]⟩)
        have hname : nameToId (inject_carryovers_into_cfg db ws we).1 c.employee =
            nameToId db c.employee := rfl
        rcases not_and_or.mp hnp with h0 | hle
        · rw [injectEntry, hname, if_pos (not_not.mp h0)]
        · rw [injectEntry, hname]
          split_ifs with h1 h2
          · rfl
          · rfl
          · exact absurd (not_lt.mp hle) (by simpa using h2)
    rw [hinj]
    rfl

theorem exactly_once_consumption_witness :
    eConsumed ∉ selectCarryovers dbD 0 6 ∧
    (consumedUpdate dbD 0 6 eConsumed).consumed = true ∧
    (inject_carryovers_into_cfg (inject_carryovers_into_cfg dbD 0 6).1 0 6).2 = [] :=
  ⟨(exactly_once_consumption dbD 0 6).2.1 eConsumed rfl,
    (exactly_once_consumption dbD 0 6).2.2.1 eConsumed rfl,
    (exactly_once_consumption dbD 0 6).2.2.2⟩

/-! ## Capacity bounds of the allocation walk (C5) -/

theorem allocShifts_spec (emp lab : String) (d : ℤ) :
    ∀ (shifts : List Shift) (hr : ℚ), 0 ≤ hr →
      blockSum (allocShifts emp lab d hr shifts).1 +
        (allocShifts emp lab d hr shifts).2 = hr ∧
      0 ≤ (allocShifts emp lab d hr shifts).2 ∧
      ∀ p ∈ (allocShifts emp lab d hr shifts).1, p.1.bend - p.1.bstart ≤ p.2 := by
  intro shifts
  induction shifts with
  | nil =>
    intro hr h0
    refine ⟨?_, h0, ?_⟩
    · rw [allocShifts, blockSum_nil, zero_add]
    · intro p hp; simp [allocShifts] at hp
  | cons sh rest ih =>
    intro hr h0
    simp only [allocShifts, qsub_eq, qadd_eq]
    split_ifs with hcap hre
    · exact ih hr h0
    · -- last allocated block of the entry: the remainder fell to `eps`
      have hle1 : min hr (max 0 (dayStart d + sh.tend - (dayStart d + sh.tstart))) ≤ hr :=
        min_le_left _ _
      have hle2 : min hr (max 0 (dayStart d + sh.tend - (dayStart d + sh.tstart))) ≤
          max 0 (dayStart d + sh.tend - (dayStart d + sh.tstart)) := min_le_right _ _
      refine ⟨?_, ?_, ?_⟩
      · rw [blockSum_cons, blockSum_nil]
        simp only [qadd_eq, qsub_eq]
        ring
      · simp only [qsub_eq]
        linarith
      · intro p hp
        rcases List.mem_cons.mp hp with h | h
        · rw [h]
          simp only [qadd_eq]
          linarith
        · simp at h
    · -- allocate and continue with the remaining shifts
      have hle1 : min hr (max 0 (dayStart d + sh.tend - (dayStart d + sh.tstart))) ≤ hr :=
        min_le_left _ _
      have hle2 : min hr (max 0 (dayStart d + sh.tend - (dayStart d + sh.tstart))) ≤
          max 0 (dayStart d + sh.tend - (dayStart d + sh.tstart)) := min_le_right _ _
      have hpos : (0 : ℚ) ≤
          hr - min hr (max 0 (dayStart d + sh.tend - (dayStart d + sh.tstart))) := by
        linarith
      obtain ⟨ihsum, ihpos, ihblocks⟩ := ih _ hpos
      refine ⟨?_, ihpos, ?_⟩
      · rw [blockSum_cons]
        simp only [qadd_eq, qsub_eq] at ihsum ⊢
        linarith
      · intro p hp
        rcases List.mem_cons.mp hp with h | h
        · rw [h]
          simp only [qadd_eq]
          linarith
        · exact ihblocks p h

theorem allocDays_spec (db : DB) (i : ℕ) (emp lab : String) (we : ℤ) :
    ∀ (fuel : ℕ) (hr : ℚ) (d : ℤ), 0 ≤ hr →
      blockSum (allocDays db i emp lab we fuel hr d) ≤ hr ∧
      ∀ p ∈ allocDays db i emp lab we fuel hr d, p.1.bend - p.1.bstart ≤ p.2 := by
  intro fuel
  induction fuel with
  | zero =>
    intro hr d h0
    refine ⟨?_, ?_⟩
    · rw [allocDays, blockSum_nil]; exact h0
    · intro p hp; simp [allocDays] at hp
  | succ fuel ih =>
    intro hr d h0
    simp only [allocDays]
    split_ifs with hg hoff hshift
    · exact ih hr (d + 1) h0
    · exact ih hr (d + 1) h0
    · obtain ⟨hsum, hpos, hblocks⟩ :=
        allocShifts_spec emp lab d (dayShiftsFor db i (weekday d)) hr h0
      obtain ⟨ihsum, ihblocks⟩ := ih _ (d + 1) hpos
      refine ⟨?_, ?_⟩
      · rw [blockSum_append]
        linarith
      · intro p hp
        rcases List.mem_append.mp hp with h | h
        · exact hblocks p h
        · exact ihblocks p h
    · refine ⟨?_, ?_⟩
      · rw [blockSum_nil]; exact h0
      · intro p hp; simp at hp

/-- **C5**: for every ledger entry, the total length of the blocking
intervals injected for it never exceeds the entry's initial
`hours_remaining`, and each injected block is no longer than the
capacity of the shift segment it was placed in. -/
theorem capacity_respected (db : DB) (we : ℤ) (e : Carry)
    (h : 0 ≤ e.hoursRemaining) :
    blockSum (injectEntry db we e) ≤ e.hoursRemaining ∧
    ∀ p ∈ injectEntry db we e, p.1.bend - p.1.bstart ≤ p.2 := by
  unfold injectEntry
  split_ifs with h1 h2
  · exact ⟨by rw [blockSum_nil]; exact h, fun p hp => by simp at hp⟩
  · exact ⟨by rw [blockSum_nil]; exact h, fun p hp => by simp at hp⟩
  · exact allocDays_spec db _ e.employee (carryLabel e) we _ e.hoursRemaining e.carryTo h

theorem capacity_respected_witness :
    (0 : ℚ) ≤ entryD.hoursRemaining ∧
    blockSum (injectEntry dbD 6 entryD) ≤ entryD.hoursRemaining :=
  ⟨by decide, (capacity_respected dbD 6 entryD (by decide)).1⟩

/-! ## Failure isolation of propagation (C9) -/

/-- **C9** (amended): an entry whose employee no longer resolves (or
whose remaining hours are not positive) contributes no blocks, keeps
its `consumed` flag (given unique ids), and does not disturb the blocks
of the remaining entries — the run's output is exactly the passing
entries' blocks.  No list of skipped entries is reported: the routine's
entire caller-visible result is the updated ledger and the appended
blocks (see the counterexample). -/
theorem failure_isolation (db : DB) (ws we : ℤ) :
    ((inject_carryovers_into_cfg db ws we).2 =
      ((selectCarryovers db ws we).filter (fun e => decide (passes db e))).flatMap
        (fun e => (injectEntry db we e).map (·.1))) ∧
    (∀ e ∈ selectCarryovers db ws we, ¬ passes db e → injectEntry db we e = []) ∧
    (∀ c ∈ db.carryovers, ¬ passes db c →
      (∀ s ∈ db.carryovers, s.id = c.id → s = c) →
        consumedUpdate db ws we c = c) := by
  have hskip : ∀ e : Carry, ¬ passes db e → injectEntry db we e = [] := by
    intro e hnp
    rcases not_and_or.mp hnp with h0 | hle
    · rw [injectEntry, if_pos (not_not.mp h0)]
    · rw [injectEntry]
      split_ifs with h1 h2
      · rfl
      · rfl
      · exact absurd (not_lt.mp hle) (by simpa using h2)
  refine ⟨?_, fun e _ hnp => hskip e hnp, ?_⟩
  · apply flatMap_filter_of
    intro e _ hpe
    rw [hskip e (of_decide_eq_false hpe)]
    rfl
  · intro c hc hnp huniq
    unfold consumedUpdate
    rw [if_neg]
    intro hany
    obtain ⟨s, hs, hpred⟩ := List.any_eq_true.mp hany
    have hps : passes db s ∧ s.id = c.id := by simpa using hpred
    have hsc : s = c := huniq s (mem_selectCarryovers.mp hs).1 hps.2
    exact hnp (hsc ▸ hps.1)

/-- **C9 counterexample**: with a skipped (unresolvable-employee) entry
next to a good one, the routine's entire result is the updated ledger —
good entry consumed, skipped entry untouched — plus the good entry's
blocks; nothing in it reports the skipped entry. -/
theorem failure_reporting_cex :
    inject_carryovers_into_cfg dbS 0 5 =
      ({ dbS with carryovers := [ghostEntry, { goodEntry with consumed := true }] },
        [⟨"A", 8, 11, "Carryover: st2 (cu2 – jo2)"⟩]) ∧
    (∀ b ∈ (inject_carryovers_into_cfg dbS 0 5).2, b.label ≠ carryLabel ghostEntry) := by
  decide

theorem failure_isolation_witness :
    injectEntry dbS 5 ghostEntry = [] ∧
    consumedUpdate dbS 0 5 ghostEntry = ghostEntry :=
  ⟨(failure_isolation dbS 0 5).2.1 ghostEntry (by decide) (by decide),
    (failure_isolation dbS 0 5).2.2 ghostEntry (by decide) (by decide) (by decide)⟩

/-! ## Overlapping carryover blocks (C10) -/

theorem allocDays_carryovers_irrel (db : DB) (l : List Carry) (i : ℕ)
    (emp lab : String) (we : ℤ) :
    ∀ (fuel : ℕ) (hr : ℚ) (d : ℤ),
      allocDays { db with carryovers := l } i emp lab we fuel hr d =
        allocDays db i emp lab we fuel hr d := by
  intro fuel
  induction fuel with
  | zero => intro hr d; rfl
  | succ fuel ih =>
    intro hr d
    simp only [allocDays]
    have h1 : hasDayOff { db with carryovers := l } i d = hasDayOff db i d := rfl
    have h2 : dayShiftsFor { db with carryovers := l } i (weekday d) =
        dayShiftsFor db i (weekday d) := rfl
    rw [h1, h2]
    simp only [ih]

theorem injectEntry_carryovers_irrel (db : DB) (l : List Carry) (we : ℤ)
    (e : Carry) :
    injectEntry { db with carryovers := l } we e = injectEntry db we e := by
  unfold injectEntry
  have h1 : nameToId { db with carryovers := l } e.employee =
      nameToId db e.employee := rfl
  rw [h1]
  split_ifs
  · rfl
  · rfl
  · exact allocDays_carryovers_irrel db l _ e.employee (carryLabel e) we _ _ _

/-- **C10**: with two unconsumed entries for the same employee resuming
the same working day, one run injects for each entry a block starting
at the very start of that day's first shift segment, so the two blocks
overlap in time; and an entry's allocation is a function of the shift
tables and that entry alone — it never subtracts capacity already
granted to another entry (the carryovers table is irrelevant to it). -/
theorem overlapping_carryovers :
    (inject_carryovers_into_cfg dbO 0 5).2 = [blockO1, blockO2] ∧
    ((inject_carryovers_into_cfg dbO 0 5).2.map (·.bstart) =
      [qadd (dayStart 0) 8, qadd (dayStart 0) 8]) ∧
    (blockO1.bstart < blockO2.bend ∧ blockO2.bstart < blockO1.bend) ∧
    (∀ (db : DB) (l : List Carry) (we : ℤ) (e : Carry),
      injectEntry { db with carryovers := l } we e = injectEntry db we e) :=
  ⟨by decide, by decide, by decide, injectEntry_carryovers_irrel⟩

end ARK
